import Mathlib

/-!
Verification of the blackjack MCTS agent (cards.py / agents.py).

Shallow embedding conventions:
* Card suits never influence any verified operation (only the rank string is
  read by `Hand.update_value`, `Deck.deal_card` and the agents), so a card is
  modelled by its rank alone.
* Python lists that are used as stacks (the deck, where `pop` removes the last
  element) are modelled with the top of the stack at the HEAD of the Lean list.
* Mutation is modelled by explicit state passing: every Python method that
  mutates an object is a Lean function that also returns the updated object.
* Fallible operations (popping from an empty list) return `Option`.
* `random.choice` and the argmax over UCB values are modelled by oracle
  streams (`List Action`, `List Nat`); wall-clock deadline checks are
  modelled by a stream of booleans.
-/

namespace AIGames

/-- Card ranks, `Deck.Values` in cards.py:
`['2','3','4','5','6','7','8','9','10','J','Q','K','A']`. -/
inductive Rank where
  | r2 | r3 | r4 | r5 | r6 | r7 | r8 | r9 | r10 | rJ | rQ | rK | rA
deriving DecidableEq

/-- The numeric contribution of a card in `Hand.update_value`:
numeral cards contribute their face value, an ace contributes 11,
face cards contribute 10. -/
def cardValue : Rank → Nat
  | .r2 => 2 | .r3 => 3 | .r4 => 4 | .r5 => 5 | .r6 => 6
  | .r7 => 7 | .r8 => 8 | .r9 => 9 | .r10 => 10
  | .rJ => 10 | .rQ => 10 | .rK => 10 | .rA => 11

/-- Whether a card is an ace (`card.value == 'A'` in `Hand.update_value`). -/
def isAce : Rank → Bool
  | .rA => true
  | _ => false

/-- `Deck.Low_cards = {'2','3','4','5','6'}`. -/
def isLowCard : Rank → Bool
  | .r2 | .r3 | .r4 | .r5 | .r6 => true
  | _ => false

/-- `Deck.High_cards = {'10','J','Q','K','A'}`. -/
def isHighCard : Rank → Bool
  | .r10 | .rJ | .rQ | .rK | .rA => true
  | _ => false

/-- A hand, `Hand.__init__` in cards.py: a card list plus the running
`value` and soft-`aces` counters. -/
structure Hand where
  cards : List Rank
  value : Nat
  aces : Nat
deriving DecidableEq

/-- `Hand()` starts empty with value 0 and no aces. -/
def emptyHand : Hand := ⟨[], 0, 0⟩

/-- The ace-adjustment loop at the end of `Hand.update_value`:
`while self.value > 21 and self.aces: self.value -= 10; self.aces -= 1`. -/
def adjustAces (v : Nat) : Nat → Nat × Nat
  | 0 => (v, 0)
  | a + 1 => if 21 < v then adjustAces (v - 10) a else (v, a + 1)

/-- `Hand.update_value`: add the card value (counting a fresh ace as 11
and incrementing the ace counter), then run the ace-adjustment loop. -/
def updateValue (h : Hand) (c : Rank) : Hand :=
  let p := adjustAces (h.value + cardValue c) (h.aces + (if isAce c then 1 else 0))
  ⟨h.cards, p.1, p.2⟩

/-- `Hand.add_card`: append the card, then update the value. -/
def addCard (h : Hand) (c : Rank) : Hand :=
  updateValue ⟨h.cards ++ [c], h.value, h.aces⟩ c

/-- Building a hand by adding a sequence of cards to an empty hand. -/
def buildHand (cs : List Rank) : Hand :=
  cs.foldl addCard emptyHand

/-- `Hand.compute_winner` in cards.py: `0` = dealer wins, `1` = player wins,
`0.5` = tie; checked in the order player-bust, dealer-bust, tie, player-win. -/
def computeWinner (h dealer : Hand) : ℚ :=
  let player_bust := 21 < h.value
  let dealer_bust := 21 < dealer.value
  let player_win := dealer.value < h.value
  let tie := h.value = dealer.value
  if player_bust then 0
  else if dealer_bust then 1
  else if tie then 1/2
  else if player_win then 1
  else 0

/-- A deck: the remaining cards (top of the Python stack at the list head)
plus the running temperature counter `_heat`.  The `card_counts` table is
dropped from the model: it is read only by `get_probability` and
`get_unique_cards`, which no verified code path calls. -/
structure Deck where
  cards : List Rank
  heat : Int
deriving DecidableEq

/-- The heat update performed by `Deck.deal_card`: low cards decrement,
high cards increment, the rest leave the counter alone. -/
def dealHeat (heat : Int) (c : Rank) : Int :=
  if isLowCard c then heat - 1 else if isHighCard c then heat + 1 else heat

/-- `Deck.deal_card`: remove and return the top card, updating the heat;
popping from an empty deck is a Python `IndexError`, hence `none`. -/
def dealCard (d : Deck) : Option (Rank × Deck) :=
  match d.cards with
  | [] => none
  | c :: rest => some (c, ⟨rest, dealHeat d.heat c⟩)

/-- The two-move action space of `BlackjackStateMCTS`. -/
inductive Action where
  | hit
  | stand
deriving DecidableEq

/-- `BlackjackStateMCTS.__init__`: deep copies of the player hand, the
dealer hand and the deck, plus the `stand` flag (initially false). -/
structure BJState where
  my_hand : Hand
  dealer_hand : Hand
  deck : Deck
  stand : Bool
deriving DecidableEq

/-- `BlackjackStateMCTS.is_terminal`: own hand value over 21, or standing. -/
def isTerminal (s : BJState) : Bool :=
  decide (21 < s.my_hand.value) || s.stand

/-- `BlackjackStateMCTS.get_actions`: always `["hit", "stand"]`,
regardless of the state (the `self` argument is not read). -/
def getActions : BJState → List Action := fun _ => [Action.hit, Action.stand]

/-- `BlackjackStateMCTS.successor`: on a deep copy, "hit" draws one card
from the copied deck into the copied own hand, "stand" sets the flag. -/
def successor (s : BJState) (a : Action) : Option BJState :=
  match a with
  | .hit => (dealCard s.deck).map fun p => { s with my_hand := addCard s.my_hand p.1, deck := p.2 }
  | .stand => some { s with stand := true }

/-- The dealer loop shared by `_simulate_dealer`:
`while agent.policy(...): agent.hit()`, where `DealerAgent.policy` is
`self.hand.value < 17` and `hit` deals from the deck into that hand.
Takes the hand being played and the deck contents; returns the final hand
and the remaining deck, or `none` when the deck runs out mid-loop. -/
def dealerLoopAux : Hand → List Rank → Int → Option (Hand × Deck)
  | h, [], ht => if h.value < 17 then none else some (h, ⟨[], ht⟩)
  | h, c :: rest, ht =>
    if h.value < 17 then dealerLoopAux (addCard h c) rest (dealHeat ht c)
    else some (h, ⟨c :: rest, ht⟩)

/-- `BlackjackStateMCTS._simulate_dealer`: builds `DealerAgent(self.deck)`,
whose `Agent.__init__` gives it a FRESH EMPTY hand, and runs the dealer loop
on that fresh hand against the state's deck.  Returns the (discarded)
agent hand together with the consumed deck. -/
def simulateDealer (s : BJState) : Option (Hand × Deck) :=
  dealerLoopAux emptyHand s.deck.cards s.deck.heat

/-- `BlackjackStateMCTS.find_terminal_value`: run `_simulate_dealer` (which
consumes the state's deck into a discarded fresh hand) and then score
`self.my_hand.compute_winner(self.dealer_hand)` — against the ORIGINAL
dealer hand, which never received a card.  Returns the payoff together
with the state as left behind by the call (deck consumed). -/
def findTerminalValue (s : BJState) : Option (ℚ × BJState) :=
  (simulateDealer s).map fun p => (computeWinner s.my_hand s.dealer_hand, { s with deck := p.2 })

/-- Modelled from the spec: `terminal_value` "runs the dealer's fixed policy
(hit while dealer hand value < 17) to completion against its own deck copy,
then scores" — i.e. the state's own dealer hand keeps receiving cards while
its value is below 17, and that completed dealer hand is the one scored.
This is the intended behaviour that `find_terminal_value` was meant to have. -/
def findTerminalValueSpec (s : BJState) : Option (ℚ × BJState) :=
  (dealerLoopAux s.dealer_hand s.deck.cards s.deck.heat).map fun p =>
    (computeWinner s.my_hand p.1, { s with dealer_hand := p.1, deck := p.2 })

/-- `BlackjackStateMCTS.refresh_hand`: rebind the state's deck and own hand
to the supplied parent copies, then UNCONDITIONALLY deal one card from that
deck into that hand.  The `stand` flag and the dealer hand are untouched. -/
def refreshHand (s : BJState) (parentDeck : Deck) (parentHand : Hand) : Option BJState :=
  (dealCard parentDeck).map fun p =>
    { s with deck := p.2, my_hand := addCard parentHand p.1 }

/-- A node of the Monte-Carlo tree, `MonteCarloNode.__init__` in agents.py:
the owned state, the visit and reward accumulators, the list of actions not
yet expanded, and the child list, each child tagged with its
`parent_action`.  (The child carries the edge action, so the Python
`parent` / `parent_action` back-references need no separate field:
backpropagation along parent links is realised by the recursive return
path of the iteration function below.) -/
inductive MCNode where
  | mk (state : BJState) (total_visits : Nat) (total_rewards : ℚ)
      (missing : List Action) (children : List (Action × MCNode))

def MCNode.state : MCNode → BJState
  | .mk s _ _ _ _ => s

def MCNode.visits : MCNode → Nat
  | .mk _ v _ _ _ => v

def MCNode.rewards : MCNode → ℚ
  | .mk _ _ r _ _ => r

def MCNode.missing : MCNode → List Action
  | .mk _ _ _ m _ => m

def MCNode.children : MCNode → List (Action × MCNode)
  | .mk _ _ _ _ c => c

/-- `MonteCarloNode.__init__`: zero visits and rewards, no children, and
`missing_child_actions` empty iff the state is terminal, otherwise
`state.get_actions()`. -/
def mkNode (s : BJState) : MCNode :=
  .mk s 0 0 (if isTerminal s then [] else getActions s) []

/-- Python `list.pop()` (no index): remove and return the LAST element. -/
def popLast : List α → Option (α × List α)
  | [] => none
  | [a] => some (a, [])
  | a :: b :: rest => (popLast (b :: rest)).map fun p => (p.1, a :: p.2)

/-- `MonteCarloNode.get_average_reward`: 0 for an unvisited node, else
total rewards over total visits. -/
def averageReward (n : MCNode) : ℚ :=
  if n.visits = 0 then 0 else n.rewards / (n.visits : ℚ)

/-- `MonteCarloNode.get_best_average_child`: Python `max` over the child
list by average reward; `max` keeps the FIRST element attaining the
maximum, and raises on an empty list (`none`). -/
def bestAverageChild (t : MCNode) : Option (Action × MCNode) :=
  match t.children with
  | [] => none
  | c :: cs => some (cs.foldl (fun best x =>
      if averageReward best.2 < averageReward x.2 then x else best) c)

/-- The rollout loop of `MonteCarloNode.simulate`:
`while not state.is_terminal(): state = state.successor(random.choice(...))`.
The random choices come from the oracle stream `roll` (any stream is a
sequence of legal actions, since `get_actions` always returns both moves;
an exhausted stream falls back to `stand`).  Fuel bounds the unrolling;
`none` means the fuel or the deck ran out before a terminal state. -/
def simLoop (fuel : Nat) (s : BJState) (roll : List Action) : Option BJState :=
  if isTerminal s then some s
  else
    match fuel with
    | 0 => none
    | f + 1 =>
      match successor s (roll.headD Action.stand) with
      | none => none
      | some s2 => simLoop f s2 roll.tail

/-- `MonteCarloNode.simulate` with its effect on the node's stored state.
The local variable `state` starts aliasing `self.state`; each loop step
rebinds it to a fresh deep copy via `successor`, and the final
`find_terminal_value` mutates whatever object it holds.  So: on a state
that is already terminal the node's own state is the one consumed, and on
a non-terminal state the node's state is returned untouched. -/
def simulateNode (s : BJState) (roll : List Action) (fuel : Nat) : Option (ℚ × BJState) :=
  if isTerminal s then findTerminalValue s
  else
    match simLoop fuel s roll with
    | none => none
    | some sEnd =>
      (findTerminalValue sEnd).map fun p => (p.1, s)

/-- One full search iteration: `find_leaf_node` (selection with
`refresh_hand`, or expansion), `simulate` at the leaf, and
`update_rewards` back along the walked path.  The UCB argmax of
`get_best_ucb_child` is modelled by the oracle stream `sel` choosing the
child index; the boolean in the result records, for every point where the
code would evaluate `get_ucb_value` on the children of the current node,
whether the parent and all its children had at least one visit (the
preconditions of `math.log(parent_total_visits)` and the division by
`self.total_visits`).  `none` marks a crash of the Python code: an empty
deck, or Python `max` applied to an empty child list. -/
def descendIter (fuel : Nat) (t : MCNode) (sel : List Nat) (roll : List Action) :
    Option (ℚ × MCNode × Bool) :=
    if isTerminal t.state then
      (findTerminalValue t.state).map fun p =>
        (p.1, .mk p.2 (t.visits + 1) (t.rewards + p.1) t.missing t.children, true)
    else if t.missing = [] then
      match fuel with
      | 0 => none
      | f + 1 =>
        match t.children.get? ((sel.headD 0) % t.children.length) with
        | none => none
        | some (a, c) =>
          match refreshHand c.state t.state.deck t.state.my_hand with
          | none => none
          | some cs2 =>
            match descendIter f (.mk cs2 c.visits c.rewards c.missing c.children) sel.tail roll with
            | none => none
            | some (p, c2, ok) =>
              some (p, .mk t.state (t.visits + 1) (t.rewards + p) t.missing
                (t.children.set ((sel.headD 0) % t.children.length) (a, c2)),
                (decide (1 ≤ t.visits) &&
                  t.children.all fun q => decide (1 ≤ q.2.visits)) && ok)
    else
      match popLast t.missing with
      | none => none
      | some (a, rest) =>
        match successor t.state a with
        | none => none
        | some ns =>
          match simulateNode ns roll fuel with
          | none => none
          | some (p, ns2) =>
            some (p, .mk t.state (t.visits + 1) (t.rewards + p) rest
              (t.children ++ [(a, .mk ns2 1 p (mkNode ns).missing [])]),
              true)

/-- The search loop of `MonteCarloAgent.policy`:
`while time.time() - start_time < Explore_time: ...` with one deadline
check per loop entry.  Each stream element carries the outcome of the
deadline check and the oracles of that iteration; an exhausted stream
behaves like an expired deadline. -/
def policyLoop (fuel : Nat) (t : MCNode) : List (Bool × List Nat × List Action) → Option MCNode
  | [] => some t
  | (b, sel, roll) :: rest =>
    if b then
      match descendIter fuel t sel roll with
      | none => none
      | some (_, t2, _) => policyLoop fuel t2 rest
    else some t

/-- `MonteCarloAgent.policy`: build the root state and node, run the
search loop, then pick the best-average child and return
`True` iff its stored action is "hit". -/
def mcPolicy (myHand oppHand : Hand) (deck : Deck)
    (checks : List (Bool × List Nat × List Action)) (fuel : Nat) : Option Bool :=
  match policyLoop fuel (mkNode ⟨myHand, oppHand, deck, false⟩) checks with
  | none => none
  | some t => (bestAverageChild t).map fun p => decide (p.1 = Action.hit)

/-- Repeated full iterations of the driver loop (deadline checks stripped):
the trees reachable by the search. -/
def runIters (fuel : Nat) : MCNode → List (List Nat × List Action) → Option MCNode
  | t, [] => some t
  | t, (sel, roll) :: rest =>
    match descendIter fuel t sel roll with
    | none => none
    | some (_, t2, _) => runIters fuel t2 rest

/-- Projection of an iteration result onto the recorded UCB precondition
checks; a crashed or fuel-starved iteration records nothing (`true`). -/
def okOf : Option (ℚ × MCNode × Bool) → Bool
  | some (_, _, ok) => ok
  | none => true

/-!
Object-identity model of `MonteCarloNode.simulate`, used for the frame
property: Python objects live in a store (a list of `BJState`), references
are indices, `deepcopy` allocates a fresh index, and mutation updates one
index in place.  This mirrors which OBJECT each step of `simulate`
touches: the local variable `state` starts as a reference to the node's
own state, `successor` allocates, and the final `find_terminal_value`
mutates the object currently referenced. -/

/-- `state.successor(action)` at store level: read the referenced state,
allocate the deep-copied successor at a fresh index. -/
def successorStore (σ : List BJState) (i : Nat) (a : Action) :
    Option (List BJState × Nat) :=
  match σ.get? i with
  | none => none
  | some s => (successor s a).map fun s2 => (σ ++ [s2], σ.length)

/-- `state.find_terminal_value()` at store level: mutate the referenced
object in place (its deck is consumed by `_simulate_dealer`). -/
def findTerminalValueStore (σ : List BJState) (i : Nat) : Option (ℚ × List BJState) :=
  match σ.get? i with
  | none => none
  | some s => (findTerminalValue s).map fun p => (p.1, σ.set i p.2)

/-- `MonteCarloNode.simulate` at store level, entered with `cur` referencing
`self.state`: loop to a terminal state through fresh copies, then score. -/
def simStoreLoop : Nat → List BJState → Nat → List Action → Option (ℚ × List BJState)
  | 0, σ, cur, _ =>
    match σ.get? cur with
    | none => none
    | some s => if isTerminal s then findTerminalValueStore σ cur else none
  | f + 1, σ, cur, roll =>
    match σ.get? cur with
    | none => none
    | some s =>
      if isTerminal s then findTerminalValueStore σ cur
      else
        match successorStore σ cur (roll.headD Action.stand) with
        | none => none
        | some (σ2, j) => simStoreLoop f σ2 j roll.tail

/-!  Concrete inputs used by the counterexample and witness theorems.  -/

/-- A 12-point player hand (ten and two). -/
def handP12 : Hand := buildHand [Rank.r10, Rank.r2]

/-- A one-card dealer hand showing a ten. -/
def handD10 : Hand := buildHand [Rank.r10]

/-- Terminal-by-standing state: player 12 vs dealer 10, deck king-then-nine. -/
def stateC1 : BJState := ⟨handP12, handD10, ⟨[Rank.rK, Rank.r9], 0⟩, true⟩

/-- A 15-point parent hand (ten and five). -/
def handP15 : Hand := buildHand [Rank.r10, Rank.r5]

/-- Parent search state for the refresh counterexample: player 15,
dealer 9, six on top of the deck, not standing. -/
def stateC2 : BJState := ⟨handP15, buildHand [Rank.r9], ⟨[Rank.r6, Rank.r4], 0⟩, false⟩

/-- A deck of six cards, small values first. -/
def deckC3 : Deck := ⟨[Rank.r2, Rank.r3, Rank.r4, Rank.r10, Rank.r9, Rank.r8], 0⟩

/-- A busted player hand (king, queen, five: value 25). -/
def handBust : Hand := buildHand [Rank.rK, Rank.rQ, Rank.r5]

/-- A soft 21 (ace and ten). -/
def handSoft21 : Hand := buildHand [Rank.rA, Rank.r10]

/-- Non-terminal state holding a soft 21, with a two on top of the deck. -/
def stateC8 : BJState := ⟨handSoft21, buildHand [Rank.r9], ⟨[Rank.r2, Rank.r3], 0⟩, false⟩

/-- A twenty-card deck for the rollout-termination witness. -/
def deckTwenty : Deck :=
  ⟨[Rank.r2, Rank.r3, Rank.r4, Rank.r5, Rank.r6, Rank.r7, Rank.r8, Rank.r9, Rank.r10, Rank.rJ,
    Rank.rQ, Rank.rK, Rank.rA, Rank.r2, Rank.r3, Rank.r4, Rank.r5, Rank.r6, Rank.r7, Rank.r8], 0⟩

/-- Non-terminal two-card state used by the rollout-termination witness. -/
def stateC8w : BJState := ⟨handP15, buildHand [Rank.r9], deckTwenty, false⟩

/-- Terminal busted state used for the terminal-root theorems. -/
def stateC4 : BJState := ⟨handBust, buildHand [Rank.r9], deckC3, false⟩

/-- Singleton store for the frame-property witness: one non-terminal state
with enough deck for the closing dealer simulation. -/
def storeC10 : List BJState := [⟨handP15, buildHand [Rank.r9], deckC3, false⟩]

/-- The scoring case analysis in the order stated by the spec: 0 if own
value is over 21; otherwise 1 if the dealer value is over 21; otherwise
0.5 on equal values; otherwise 1 if own value is higher; otherwise 0. -/
def scoringSpec (own dealer : Nat) : ℚ :=
  if 21 < own then 0
  else if 21 < dealer then 1
  else if own = dealer then 1/2
  else if dealer < own then 1
  else 0

/-- Raw point total of a card list with every ace counted as 11. -/
def rawSum (cs : List Rank) : Nat := (cs.map cardValue).sum

/-- Number of aces in a card list. -/
def nAces (cs : List Rank) : Nat := cs.countP fun c => isAce c

/-- Modelled from the spec: the "best (ace-optimized, ≤-prioritizing)
total" of a raw sum with a given number of relaxable aces — keep the
total as high as possible, relaxing an ace by 10 only while the total
exceeds 21 and an ace is left. -/
def relaxTotal : Nat → Nat → Nat
  | s, 0 => s
  | s, a + 1 => if s ≤ 21 then s else relaxTotal (s - 10) a

/-- Modelled from the spec: the best ace-optimized total of the cards held. -/
def bestTotal (cs : List Rank) : Nat := relaxTotal (rawSum cs) (nAces cs)

/-- The structural invariant of search trees produced by the driver loop:
every node has at least as many visits as children, and every child ever
attached has been visited at least once (it was the backpropagated leaf of
the iteration that created it). -/
inductive NodeInv : MCNode → Prop where
  | mk : ∀ (s : BJState) (v : Nat) (r : ℚ) (m : List Action)
      (c : List (Action × MCNode)),
      c.length ≤ v →
      (∀ q ∈ c, 1 ≤ (q.2).visits) →
      (∀ q ∈ c, NodeInv q.2) →
      NodeInv (.mk s v r m c)

end AIGames

namespace AIGames

theorem MCNode.state_mk (s : BJState) (v : Nat) (r : ℚ) (m : List Action)
    (c : List (Action × MCNode)) : (MCNode.mk s v r m c).state = s := rfl

theorem MCNode.visits_mk (s : BJState) (v : Nat) (r : ℚ) (m : List Action)
    (c : List (Action × MCNode)) : (MCNode.mk s v r m c).visits = v := rfl

theorem MCNode.rewards_mk (s : BJState) (v : Nat) (r : ℚ) (m : List Action)
    (c : List (Action × MCNode)) : (MCNode.mk s v r m c).rewards = r := rfl

theorem MCNode.missing_mk (s : BJState) (v : Nat) (r : ℚ) (m : List Action)
    (c : List (Action × MCNode)) : (MCNode.mk s v r m c).missing = m := rfl

theorem MCNode.children_mk (s : BJState) (v : Nat) (r : ℚ) (m : List Action)
    (c : List (Action × MCNode)) : (MCNode.mk s v r m c).children = c := rfl

attribute [simp] MCNode.state_mk MCNode.visits_mk MCNode.rewards_mk
  MCNode.missing_mk MCNode.children_mk

/-- Claim C5: for fixed hands with no further draws, `compute_winner` is
exactly the deterministic case analysis — 0 if the own value exceeds 21,
else 1 if the dealer value exceeds 21, else 0.5 on a tie, else 1 if the
own value is higher, else 0. -/
theorem computeWinner_case_analysis :
    ∀ h dealer : Hand, computeWinner h dealer = scoringSpec h.value dealer.value :=
  fun _ _ => rfl

/-- Claim C1: `find_terminal_value` does NOT play the dealer policy on the
hand it scores.  On the terminal state `stateC1` (player 12, dealer
showing 10, deck king-then-nine) the code returns payoff 1 and the scored
dealer hand still holds a single card — the dealer draws go into the
discarded fresh hand of `DealerAgent(self.deck)` — while the behaviour
the claim and spec describe (the scored dealer hand itself hits to 17,
reaching 20) yields payoff 0. -/
theorem findTerminalValue_scores_unplayed_dealer :
    (findTerminalValue stateC1).map (fun p => p.1) = some 1 ∧
    ((findTerminalValue stateC1).map fun p => p.2.dealer_hand.cards.length) = some 1 ∧
    (findTerminalValueSpec stateC1).map (fun p => p.1) = some 0 := by
  decide

/-- Claim C2: selection into an already-expanded "stand" child does NOT
re-apply the stored action — `refresh_hand` unconditionally deals a card.
From the parent `stateC2` (hand value 15, a six on top of the deck),
`successor(stand)` keeps the hand at 15, but refreshing the stand child
from the parent deals the six into it, leaving value 21 with the stand
flag still set. -/
theorem refreshHand_draws_card_on_stand_edge :
    ((successor stateC2 Action.stand).bind fun c =>
      (refreshHand c stateC2.deck stateC2.my_hand).map fun c2 => c2.my_hand.value) = some 21 ∧
    (successor stateC2 Action.stand).map (fun c => c.my_hand.value) = some 15 ∧
    ((successor stateC2 Action.stand).bind fun c =>
      (refreshHand c stateC2.deck stateC2.my_hand).map fun c2 => c2.stand) = some true := by
  decide

/-- Claim C9, counterexample: on a terminal state (busted hand, value 25)
`get_actions` still returns `["hit", "stand"]`, not the empty set the
claim asserts for terminal states. -/
theorem getActions_terminal_not_empty :
    isTerminal stateC4 = true ∧ getActions stateC4 = [Action.hit, Action.stand] ∧
      getActions stateC4 ≠ ([] : List Action) := by
  decide

/-- Claim C9, amended: `get_actions` returns `["hit", "stand"]` for EVERY
state, terminal or not; the empty action set for terminal states is
realised one level up, in `MonteCarloNode.__init__`, whose unexpanded
action list is empty exactly when the stored state is terminal. -/
theorem getActions_const_missing_empty_iff_terminal :
    ∀ s : BJState, getActions s = [Action.hit, Action.stand] ∧
      (mkNode s).missing = (if isTerminal s then [] else [Action.hit, Action.stand]) :=
  fun _ => ⟨rfl, rfl⟩

/-- Claim C8, counterexample: a hit can DECREASE the hand value.  In the
non-terminal state `stateC8` the hand is a soft 21 (ace and ten); hitting
draws the two on top of the deck and the ace relaxation drops the value
to 13, refuting "each added card increases it by at least 1". -/
theorem hit_can_decrease_value :
    isTerminal stateC8 = false ∧ stateC8.my_hand.value = 21 ∧
    (successor stateC8 Action.hit).map (fun s => s.my_hand.value) = some 13 := by
  decide

/-- Claim C3, counterexample: with a budget already expired at the first
deadline check the search loop of `MonteCarloAgent.policy` runs ZERO
iterations (it is a pre-test `while`, not a do-while), the root keeps an
empty child list, and the final `max` over children fails — the code has
no minimum-one-iteration guarantee. -/
theorem mcPolicy_expired_budget_no_iteration :
    mcPolicy handP15 (buildHand [Rank.r9]) deckC3 [] 5 = none ∧
    (policyLoop 5 (mkNode ⟨handP15, buildHand [Rank.r9], deckC3, false⟩) []).map
      (fun t => t.children.length) = some 0 := by
  decide

/-- The ace-adjustment loop commutes with later additions: adjusting after
adding more points and aces gives the same result as adding them to the
already-adjusted pair.  This is the confluence fact behind the running
`value`/`aces` bookkeeping of `Hand`. -/
theorem adjustAces_add (a : Nat) : ∀ S x y : Nat,
    adjustAces ((adjustAces S a).1 + x) ((adjustAces S a).2 + y) =
      adjustAces (S + x) (a + y) := by
  induction a with
  | zero => intro S x y; simp [adjustAces]
  | succ a ih =>
    intro S x y
    by_cases h : 21 < S
    · have h1 : adjustAces S (a + 1) = adjustAces (S - 10) a := by
        simp [adjustAces, h]
      have h2 : S - 10 + x = S + x - 10 := by omega
      have h3 : 21 < S + x := by omega
      have h4 : a + 1 + y = (a + y) + 1 := by omega
      rw [h1, ih (S - 10) x y, h2, h4]
      simp [adjustAces, h3]
    · have h1 : adjustAces S (a + 1) = (S, a + 1) := by
        simp [adjustAces, h]
      have h4 : a + 1 + y = (a + y) + 1 := by omega
      rw [h1, h4]

/-- After the ace-adjustment loop, either the value is at most 21 or no
soft ace remains. -/
theorem adjustAces_post (a : Nat) : ∀ S : Nat,
    (adjustAces S a).1 ≤ 21 ∨ (adjustAces S a).2 = 0 := by
  induction a with
  | zero => intro S; right; rfl
  | succ a ih =>
    intro S
    by_cases h : 21 < S
    · simpa [adjustAces, h] using ih (S - 10)
    · left; simp [adjustAces, h]; omega

/-- The adjusted value never drops below the raw sum minus ten per ace. -/
theorem adjustAces_fst_ge (a : Nat) : ∀ S : Nat, S - 10 * a ≤ (adjustAces S a).1 := by
  induction a with
  | zero => intro S; simp [adjustAces]
  | succ a ih =>
    intro S
    by_cases h : 21 < S
    · have := ih (S - 10)
      have h2 : S - 10 * (a + 1) ≤ S - 10 - 10 * a := by omega
      simp only [adjustAces, h, if_true]
      omega
    · simp [adjustAces, h]

/-- The value component of the code's ace-adjustment loop equals the
spec-modelled ace-relaxed best total. -/
theorem adjustAces_fst_relax (a : Nat) : ∀ S : Nat,
    (adjustAces S a).1 = relaxTotal S a := by
  induction a with
  | zero => intro S; rfl
  | succ a ih =>
    intro S
    by_cases h : 21 < S
    · have hn : ¬ S ≤ 21 := by omega
      simp [adjustAces, relaxTotal, h, hn, ih (S - 10)]
    · have hy : S ≤ 21 := by omega
      simp [adjustAces, relaxTotal, h, hy]

theorem addCard_cards (h : Hand) (c : Rank) : (addCard h c).cards = h.cards ++ [c] := rfl

/-- `add_card` only appends to the card list. -/
theorem foldl_addCard_cards : ∀ (cs : List Rank) (h : Hand),
    (cs.foldl addCard h).cards = h.cards ++ cs := by
  intro cs
  induction cs with
  | nil => intro h; simp
  | cons c cs ih =>
    intro h
    simp only [List.foldl_cons, ih (addCard h c), addCard_cards]
    simp

theorem buildHand_cards (cs : List Rank) : (buildHand cs).cards = cs := by
  simp [buildHand, foldl_addCard_cards, emptyHand]

theorem rawSum_cons (c : Rank) (cs : List Rank) :
    rawSum (c :: cs) = cardValue c + rawSum cs := by
  simp [rawSum]

theorem nAces_cons (c : Rank) (cs : List Rank) :
    nAces (c :: cs) = (if isAce c then 1 else 0) + nAces cs := by
  by_cases h : isAce c
  · simp [nAces, List.countP_cons, h]
    omega
  · simp [nAces, List.countP_cons, h]

/-- The incremental `value`/`aces` bookkeeping of `add_card` computes the
batch ace adjustment of the whole raw sum. -/
theorem foldl_addCard_pair : ∀ (cs : List Rank) (h : Hand) (S a : Nat),
    (h.value, h.aces) = adjustAces S a →
    ((cs.foldl addCard h).value, (cs.foldl addCard h).aces) =
      adjustAces (S + rawSum cs) (a + nAces cs) := by
  intro cs
  induction cs with
  | nil => intro h S a hh; simpa [rawSum, nAces] using hh
  | cons c cs ih =>
    intro h S a hh
    have hv : h.value = (adjustAces S a).1 := by rw [← hh]
    have ha : h.aces = (adjustAces S a).2 := by rw [← hh]
    have step : ((addCard h c).value, (addCard h c).aces) =
        adjustAces (S + cardValue c) (a + (if isAce c then 1 else 0)) := by
      have : ((addCard h c).value, (addCard h c).aces) =
          adjustAces (h.value + cardValue c) (h.aces + (if isAce c then 1 else 0)) := rfl
      rw [this, hv, ha, adjustAces_add]
    have := ih (addCard h c) (S + cardValue c) (a + (if isAce c then 1 else 0)) step
    rw [List.foldl_cons, this, rawSum_cons, nAces_cons]
    have e1 : S + cardValue c + rawSum cs = S + (cardValue c + rawSum cs) := by omega
    have e2 : a + (if isAce c then 1 else 0) + nAces cs =
        a + ((if isAce c then 1 else 0) + nAces cs) := by omega
    rw [e1, e2]

/-- The running pair of a built hand equals the batch adjustment of the
raw totals. -/
theorem buildHand_pair (cs : List Rank) :
    ((buildHand cs).value, (buildHand cs).aces) = adjustAces (rawSum cs) (nAces cs) := by
  have h0 : ((emptyHand).value, (emptyHand).aces) = adjustAces 0 0 := rfl
  simpa using foldl_addCard_pair cs emptyHand 0 0 h0

theorem buildHand_value (cs : List Rank) :
    (buildHand cs).value = (adjustAces (rawSum cs) (nAces cs)).1 := by
  have := buildHand_pair cs
  exact congrArg Prod.fst this

theorem buildHand_aces (cs : List Rank) :
    (buildHand cs).aces = (adjustAces (rawSum cs) (nAces cs)).2 := by
  have := buildHand_pair cs
  exact congrArg Prod.snd this

/-- Claim C6: for any sequence of card additions, the `value` field equals
the best ace-optimized total of the cards held; it never exceeds 21 while
a soft ace remains available; and adding an ace to a hand of value at
most 10 yields exactly the old value plus 11. -/
theorem hand_value_invariant :
    (∀ cs : List Rank, (buildHand cs).value = bestTotal cs ∧
      ((buildHand cs).value ≤ 21 ∨ (buildHand cs).aces = 0)) ∧
    (∀ h : Hand, h.value ≤ 10 → (addCard h Rank.rA).value = h.value + 11) := by
  constructor
  · intro cs
    constructor
    · rw [buildHand_value, bestTotal, adjustAces_fst_relax]
    · rw [buildHand_value, buildHand_aces]
      exact adjustAces_post (nAces cs) (rawSum cs)
  · intro h hle
    have hval : (addCard h Rank.rA).value =
        (adjustAces (h.value + 11) (h.aces + 1)).1 := rfl
    have hn : ¬ 21 < h.value + 11 := by omega
    rw [hval]
    simp [adjustAces, hn]

/-- Witness for C6: a two-card hand of value 10 takes an ace to exactly 21. -/
theorem hand_value_invariant_witness :
    (addCard (buildHand [Rank.r4, Rank.r6]) Rank.rA).value =
      (buildHand [Rank.r4, Rank.r6]).value + 11 :=
  hand_value_invariant.2 (buildHand [Rank.r4, Rank.r6]) (by decide)

/-- Every card is worth at least 2 points, and an ace is worth 11. -/
theorem rawSum_ge (cs : List Rank) : 2 * cs.length + 9 * nAces cs ≤ rawSum cs := by
  induction cs with
  | nil => simp [rawSum, nAces]
  | cons c cs ih =>
    rw [rawSum_cons, nAces_cons, List.length_cons]
    cases c <;> simp [cardValue, isAce] <;> omega

theorem nAces_le_length (cs : List Rank) : nAces cs ≤ cs.length :=
  List.countP_le_length _

/-- A hand built by `add_card` is always worth at least one point per card:
ace relaxation can lower the value, but never below the card count. -/
theorem buildHand_value_ge_length (cs : List Rank) :
    cs.length ≤ (buildHand cs).value := by
  rw [buildHand_value]
  have h1 := adjustAces_fst_ge (nAces cs) (rawSum cs)
  have h2 := rawSum_ge cs
  have h3 := nAces_le_length cs
  omega

theorem addCard_buildHand (cs : List Rank) (c : Rank) :
    addCard (buildHand cs) c = buildHand (cs ++ [c]) := by
  simp [buildHand, List.foldl_append]

/-- The rollout loop reaches a terminal state before running out of fuel,
whenever fuel plus the current card count reaches 22 and the deck can
cover every hit: the hand value is at least the card count, so at most
`22 - |cards|` hits fit under 21, and a stand ends the loop at once. -/
theorem simLoop_total : ∀ (fuel : Nat) (cs : List Rank) (s : BJState) (roll : List Action),
    s.my_hand = buildHand cs → 22 ≤ fuel + cs.length → fuel ≤ s.deck.cards.length →
    (simLoop fuel s roll).isSome = true := by
  intro fuel
  induction fuel with
  | zero =>
    intro cs s roll hh hf _
    by_cases ht : isTerminal s
    · simp [simLoop, ht]
    · exfalso
      have hv : s.my_hand.value ≤ 21 := by
        simp [isTerminal] at ht
        omega
      have := buildHand_value_ge_length cs
      rw [← hh] at this
      omega
  | succ f ih =>
    intro cs s roll hh hf hd
    by_cases ht : isTerminal s
    · simp [simLoop, ht]
    · rw [simLoop, if_neg (by simp [ht])]
      cases ha : roll.headD Action.stand with
      | stand =>
        show (simLoop f { s with stand := true } roll.tail).isSome = true
        rw [simLoop.eq_def]
        simp [isTerminal]
      | hit =>
        match hdk : s.deck.cards with
        | [] => simp [hdk] at hd
        | c :: rest =>
          have hs2 : successor s Action.hit =
              some { s with my_hand := addCard s.my_hand c,
                            deck := ⟨rest, dealHeat s.deck.heat c⟩ } := by
            simp [successor, dealCard, hdk]
          rw [hs2]
          have hh2 : (addCard s.my_hand c) = buildHand (cs ++ [c]) := by
            rw [hh, addCard_buildHand]
          have := ih (cs ++ [c])
            { s with my_hand := addCard s.my_hand c,
                     deck := ⟨rest, dealHeat s.deck.heat c⟩ } roll.tail
            (by simpa using hh2)
            (by simp; omega)
            (by simp [hdk] at hd; simpa using hd)
          simpa using this

/-- Claim C8, amended: from every non-terminal state whose hand was built
from at least two cards (as all reachable states are) and whose deck can
cover the draws, the uniform-random rollout reaches a terminal state
within 20 steps, for EVERY choice stream — not because hits are monotone
(they are not, see the counterexample), but because the hand value never
drops below the number of cards held. -/
theorem rollout_terminates_within_twenty :
    ∀ (s : BJState) (cs : List Rank) (roll : List Action),
    s.my_hand = buildHand cs → 2 ≤ cs.length → isTerminal s = false →
    20 ≤ s.deck.cards.length →
    (simLoop 20 s roll).isSome = true := by
  intro s cs roll hh hlen _ hd
  exact simLoop_total 20 cs s roll hh (by omega) hd

/-- Witness for C8: a concrete 15-point two-card state over a twenty-card
deck finishes its rollout within 20 steps. -/
theorem rollout_terminates_witness :
    (simLoop 20 stateC8w [Action.hit, Action.hit, Action.hit]).isSome = true :=
  rollout_terminates_within_twenty stateC8w [Rank.r10, Rank.r5]
    [Action.hit, Action.hit, Action.hit] rfl (by decide) (by decide) (by decide)

/-- `find_terminal_value` only consumes the deck: the hands and the stand
flag of the receiver are untouched. -/
theorem findTerminalValue_frame (s : BJState) (p : ℚ) (s2 : BJState)
    (h : findTerminalValue s = some (p, s2)) :
    s2.my_hand = s.my_hand ∧ s2.stand = s.stand := by
  unfold findTerminalValue at h
  cases hd : simulateDealer s with
  | none => rw [hd] at h; simp at h
  | some q =>
    rw [hd] at h
    simp only [Option.map_some'] at h
    obtain ⟨-, h2⟩ := Prod.mk.injEq .. ▸ Option.some.injEq .. ▸ h
    subst h2
    exact ⟨rfl, rfl⟩

/-- On a node holding a terminal state with no children, every driver
iteration returns a node that again holds a terminal state and has no
children: the terminal branch only consumes the deck and bumps the
counters. -/
theorem policyLoop_terminal : ∀ (checks : List (Bool × List Nat × List Action))
    (fuel : Nat) (t : MCNode), isTerminal t.state = true → t.children = [] →
    ∀ t2, policyLoop fuel t checks = some t2 →
      isTerminal t2.state = true ∧ t2.children = [] := by
  intro checks
  induction checks with
  | nil =>
    intro fuel t ht hc t2 h
    simp only [policyLoop] at h
    cases h
    exact ⟨ht, hc⟩
  | cons e rest ih =>
    intro fuel t ht hc t2 h
    obtain ⟨b, sel, roll⟩ := e
    simp only [policyLoop] at h
    by_cases hb : b = true
    · rw [if_pos hb] at h
      cases hdes : descendIter fuel t sel roll with
      | none => rw [hdes] at h; simp at h
      | some q =>
        obtain ⟨p, t1, ok⟩ := q
        rw [hdes] at h
        have hterm2 : isTerminal t1.state = true ∧ t1.children = [] := by
          rw [descendIter.eq_def] at hdes
          rw [if_pos ht] at hdes
          cases hf : findTerminalValue t.state with
          | none => rw [hf] at hdes; simp at hdes
          | some q2 =>
            rw [hf] at hdes
            simp only [Option.map_some'] at hdes
            simp only [Option.some.injEq, Prod.mk.injEq] at hdes
            obtain ⟨-, h2, -⟩ := hdes
            have hfr := findTerminalValue_frame t.state q2.1 q2.2 (by rw [hf])
            subst h2
            refine ⟨?_, hc⟩
            simp only [MCNode.state_mk]
            rw [isTerminal, hfr.1, hfr.2, ← isTerminal, ht]
        exact ih fuel t1 hterm2.1 hterm2.2 t2 h
    · rw [if_neg hb] at h
      cases h
      exact ⟨ht, hc⟩

/-- Claim C4, amended: there is no terminal short-circuit.  On a root
whose hand value already exceeds 21 the entry point still builds the tree
and runs the loop; every iteration returns the terminal root itself, so
no child is ever expanded and the final best-average-child selection
fails: no action (in particular not "stand") is ever returned, for every
budget and every oracle. -/
theorem mcPolicy_terminal_root_never_answers :
    ∀ (myHand oppHand : Hand) (deck : Deck)
      (checks : List (Bool × List Nat × List Action)) (fuel : Nat),
    21 < myHand.value →
    mcPolicy myHand oppHand deck checks fuel = none := by
  intro myHand oppHand deck checks fuel hv
  unfold mcPolicy
  have hterm : isTerminal (⟨myHand, oppHand, deck, false⟩ : BJState) = true := by
    simp [isTerminal]
    omega
  have hroot : (mkNode ⟨myHand, oppHand, deck, false⟩).children = [] := rfl
  have hroott : isTerminal (mkNode ⟨myHand, oppHand, deck, false⟩).state = true := hterm
  cases hl : policyLoop fuel (mkNode ⟨myHand, oppHand, deck, false⟩) checks with
  | none => rfl
  | some t2 =>
    have := policyLoop_terminal checks fuel _ hroott hroot t2 hl
    simp only [bestAverageChild, this.2]
    rfl

/-- Witness for the amended C4: a concrete busted root (value 25) with a
live budget yields no action. -/
theorem mcPolicy_terminal_root_witness :
    mcPolicy handBust (buildHand [Rank.r9]) deckC3 [(true, [], []), (true, [], [])] 7 = none :=
  mcPolicy_terminal_root_never_answers handBust (buildHand [Rank.r9]) deckC3
    [(true, [], []), (true, [], [])] 7 (by decide)

/-- One driver iteration never removes children, and bumps the visit
count of the entered node by exactly one. -/
theorem descend_children_len (fuel : Nat) (t : MCNode) (sel : List Nat)
    (roll : List Action) (p : ℚ) (t2 : MCNode) (ok : Bool)
    (h : descendIter fuel t sel roll = some (p, t2, ok)) :
    t.children.length ≤ t2.children.length ∧ t2.visits = t.visits + 1 := by
  rw [descendIter.eq_def] at h
  split at h
  · -- terminal branch
    cases hf : findTerminalValue t.state with
    | none => rw [hf] at h; simp at h
    | some q =>
      rw [hf] at h
      simp only [Option.map_some', Option.some.injEq, Prod.mk.injEq] at h
      obtain ⟨-, h2, -⟩ := h
      subst h2
      simp
  · split at h
    · -- fully expanded: selection
      split at h
      · exact absurd h (by simp)
      · split at h
        · exact absurd h (by simp)
        · split at h
          · exact absurd h (by simp)
          · split at h
            · exact absurd h (by simp)
            · simp only [Option.some.injEq, Prod.mk.injEq] at h
              obtain ⟨-, h2, -⟩ := h
              subst h2
              simp
    · -- expansion
      split at h
      · exact absurd h (by simp)
      · split at h
        · exact absurd h (by simp)
        · split at h
          · exact absurd h (by simp)
          · simp only [Option.some.injEq, Prod.mk.injEq] at h
            obtain ⟨-, h2, -⟩ := h
            subst h2
            simp

/-- On a non-terminal node with an unexpanded action, a successful
iteration attaches exactly one new child. -/
theorem descend_expands (fuel : Nat) (t : MCNode) (sel : List Nat)
    (roll : List Action) (p : ℚ) (t2 : MCNode) (ok : Bool)
    (hter : isTerminal t.state = false) (hmis : t.missing ≠ [])
    (h : descendIter fuel t sel roll = some (p, t2, ok)) :
    t2.children.length = t.children.length + 1 := by
  rw [descendIter.eq_def] at h
  rw [if_neg (by simp [hter]), if_neg hmis] at h
  split at h
  · exact absurd h (by simp)
  · split at h
    · exact absurd h (by simp)
    · split at h
      · exact absurd h (by simp)
      · simp only [Option.some.injEq, Prod.mk.injEq] at h
        obtain ⟨-, h2, -⟩ := h
        subst h2
        simp

/-- The driver loop never removes children of the running root. -/
theorem policyLoop_children_len : ∀ (checks : List (Bool × List Nat × List Action))
    (fuel : Nat) (t t2 : MCNode), policyLoop fuel t checks = some t2 →
    t.children.length ≤ t2.children.length := by
  intro checks
  induction checks with
  | nil =>
    intro fuel t t2 h
    simp only [policyLoop] at h
    cases h
    exact le_refl _
  | cons e rest ih =>
    intro fuel t t2 h
    obtain ⟨b, sel, roll⟩ := e
    simp only [policyLoop] at h
    by_cases hb : b = true
    · rw [if_pos hb] at h
      cases hdes : descendIter fuel t sel roll with
      | none => rw [hdes] at h; simp at h
      | some q =>
        obtain ⟨p, t1, ok⟩ := q
        rw [hdes] at h
        exact le_trans (descend_children_len fuel t sel roll p t1 ok hdes).1
          (ih fuel t1 t2 h)
    · rw [if_neg hb] at h
      cases h
      exact le_refl _

theorem bestAverageChild_isSome (t : MCNode) (h : t.children ≠ []) :
    (bestAverageChild t).isSome = true := by
  unfold bestAverageChild
  cases hc : t.children with
  | nil => exact absurd hc h
  | cons c cs => simp

/-- Claim C3, amended: the pre-test loop guarantees an iteration only when
the FIRST deadline check passes.  In that case — whenever the loop runs to
completion — the first iteration has expanded a child of the fresh
non-terminal root, children are never removed, and the final
best-average-child selection succeeds. -/
theorem mcPolicy_first_check_selection_succeeds :
    ∀ (myHand oppHand : Hand) (deck : Deck) (sel : List Nat) (roll : List Action)
      (rest : List (Bool × List Nat × List Action)) (fuel : Nat),
    isTerminal ⟨myHand, oppHand, deck, false⟩ = false →
    (policyLoop fuel (mkNode ⟨myHand, oppHand, deck, false⟩)
      ((true, sel, roll) :: rest)).isSome = true →
    (mcPolicy myHand oppHand deck ((true, sel, roll) :: rest) fuel).isSome = true := by
  intro myHand oppHand deck sel roll rest fuel hter hloop
  unfold mcPolicy
  cases hl : policyLoop fuel (mkNode ⟨myHand, oppHand, deck, false⟩)
      ((true, sel, roll) :: rest) with
  | none => rw [hl] at hloop; simp at hloop
  | some t2 =>
    have hne : t2.children ≠ [] := by
      have hstep := hl
      simp only [policyLoop, if_pos rfl] at hstep
      cases hdes : descendIter fuel (mkNode ⟨myHand, oppHand, deck, false⟩) sel roll with
      | none => rw [hdes] at hstep; simp at hstep
      | some q =>
        obtain ⟨p, t1, ok⟩ := q
        rw [hdes] at hstep
        have h1 : t1.children.length =
            (mkNode ⟨myHand, oppHand, deck, false⟩).children.length + 1 :=
          descend_expands fuel _ sel roll p t1 ok hter (by simp [mkNode, hter, getActions]) hdes
        have h2 := policyLoop_children_len rest fuel t1 t2 hstep
        intro habs
        rw [habs, List.length_nil] at h2
        simp [mkNode] at h1
        omega
    have hbs := bestAverageChild_isSome t2 hne
    cases hbc : bestAverageChild t2 with
    | none => rw [hbc] at hbs; simp at hbs
    | some q => simp [hbc]

/-- Witness for the amended C3: one passing deadline check on a 15-point
root yields an answer. -/
theorem mcPolicy_first_check_witness :
    (mcPolicy handP15 (buildHand [Rank.r9]) deckC3 [(true, [], [Action.stand])] 5).isSome
      = true :=
  mcPolicy_first_check_selection_succeeds handP15 (buildHand [Rank.r9]) deckC3
    [] [Action.stand] [] 5 (by decide) (by decide)

/-- Indices below the cursor are never touched by the store-level rollout:
`successor` only allocates at the end of the store and the final
`find_terminal_value` mutates the cursor's object. -/
theorem simStoreLoop_frame_aux : ∀ (fuel : Nat) (σ : List BJState) (cur : Nat)
    (roll : List Action) (i : Nat) (p : ℚ) (σ2 : List BJState), i < cur →
    simStoreLoop fuel σ cur roll = some (p, σ2) → σ2.get? i = σ.get? i := by
  intro fuel
  induction fuel with
  | zero =>
    intro σ cur roll i p σ2 hlt h
    rw [simStoreLoop] at h
    cases hg : σ.get? cur with
    | none => rw [hg] at h; simp at h
    | some s =>
      simp only [hg] at h
      by_cases ht : isTerminal s = true
      · rw [if_pos ht] at h
        rw [findTerminalValueStore.eq_def] at h
        simp only [hg] at h
        cases hf : findTerminalValue s with
        | none => rw [hf] at h; simp at h
        | some q =>
          rw [hf] at h
          simp only [Option.map_some', Option.some.injEq, Prod.mk.injEq] at h
          obtain ⟨-, h2⟩ := h
          subst h2
          exact List.get?_set_ne q.2 σ (by omega)
      · rw [if_neg ht] at h
        simp at h
  | succ f ih =>
    intro σ cur roll i p σ2 hlt h
    rw [simStoreLoop] at h
    cases hg : σ.get? cur with
    | none => rw [hg] at h; simp at h
    | some s =>
      simp only [hg] at h
      by_cases ht : isTerminal s = true
      · rw [if_pos ht] at h
        rw [findTerminalValueStore.eq_def] at h
        simp only [hg] at h
        cases hf : findTerminalValue s with
        | none => rw [hf] at h; simp at h
        | some q =>
          rw [hf] at h
          simp only [Option.map_some', Option.some.injEq, Prod.mk.injEq] at h
          obtain ⟨-, h2⟩ := h
          subst h2
          exact List.get?_set_ne q.2 σ (by omega)
      · rw [if_neg ht] at h
        rw [successorStore.eq_def] at h
        simp only [hg] at h
        cases hsuc : successor s (roll.headD Action.stand) with
        | none => rw [hsuc] at h; simp at h
        | some s2 =>
          rw [hsuc] at h
          simp only [Option.map_some'] at h
          have hcur : cur < σ.length := (List.get?_eq_some.mp hg).1
          have hi : i < σ.length := by omega
          have := ih (σ ++ [s2]) σ.length roll.tail i p σ2 hi h
          rw [this]
          exact List.get?_append hi

/-- Claim C10: `simulate()` on a node whose stored state is non-terminal
returns its payoff without modifying that state.  In the object-store
model: if index `i` holds a non-terminal state, a completed store-level
rollout entered at `i` leaves index `i` exactly as it was — every step
after the first operates on freshly allocated deep copies, and the
closing `find_terminal_value` mutates such a copy, not the node's state.
(On a terminal state the rollout scores — and mutates — the node's own
state instead, which is why the non-terminal hypothesis is needed.) -/
theorem simulate_preserves_nonterminal_state :
    ∀ (fuel : Nat) (σ : List BJState) (i : Nat) (s : BJState) (roll : List Action),
    σ.get? i = some s → isTerminal s = false →
    (simStoreLoop fuel σ i roll).map (fun r => r.2.get? i) =
      (simStoreLoop fuel σ i roll).map (fun _ => some s) := by
  intro fuel σ i s roll hg ht
  cases hr : simStoreLoop fuel σ i roll with
  | none => rfl
  | some q =>
    obtain ⟨p, σ2⟩ := q
    simp only [Option.map_some', Option.some.injEq]
    match fuel, hr with
    | 0, hr =>
      rw [simStoreLoop] at hr
      simp only [hg] at hr
      rw [if_neg (by simp [ht])] at hr
      simp at hr
    | f + 1, hr =>
      rw [simStoreLoop] at hr
      simp only [hg] at hr
      rw [if_neg (by simp [ht])] at hr
      rw [successorStore.eq_def] at hr
      simp only [hg] at hr
      cases hsuc : successor s (roll.headD Action.stand) with
      | none => rw [hsuc] at hr; simp at hr
      | some s2 =>
        rw [hsuc] at hr
        simp only [Option.map_some'] at hr
        have hi : i < σ.length := (List.get?_eq_some.mp hg).1
        have := simStoreLoop_frame_aux f (σ ++ [s2]) σ.length roll.tail i p σ2 hi hr
        rw [this, List.get?_append hi, hg]

/-- Witness for C10: a completed store rollout from the singleton store
leaves the node's state (index 0) untouched. -/
theorem simulate_preserves_witness :
    (simStoreLoop 5 storeC10 0 [Action.stand]).map (fun r => r.2.get? 0) =
      (simStoreLoop 5 storeC10 0 [Action.stand]).map
        (fun _ => some (⟨handP15, buildHand [Rank.r9], deckC3, false⟩ : BJState)) :=
  simulate_preserves_nonterminal_state 5 storeC10 0
    ⟨handP15, buildHand [Rank.r9], deckC3, false⟩ [Action.stand] rfl (by decide)

/-- Unfolding of an iteration at a terminal node. -/
theorem descendIter_terminal_eq (fuel : Nat) (t : MCNode) (sel : List Nat)
    (roll : List Action) (ht : isTerminal t.state = true) :
    descendIter fuel t sel roll = (findTerminalValue t.state).map fun p =>
      (p.1, MCNode.mk p.2 (t.visits + 1) (t.rewards + p.1) t.missing t.children, true) := by
  rw [descendIter.eq_def, if_pos ht]

/-- Unfolding of an iteration at a non-terminal node with an unexpanded
action: expansion, rollout and backpropagation. -/
theorem descendIter_expand_eq (fuel : Nat) (t : MCNode) (sel : List Nat)
    (roll : List Action) (ht : isTerminal t.state = false) (hm : t.missing ≠ []) :
    descendIter fuel t sel roll =
      (match popLast t.missing with
      | none => none
      | some (a, rest) =>
        match successor t.state a with
        | none => none
        | some ns =>
          match simulateNode ns roll fuel with
          | none => none
          | some (p, ns2) =>
            some (p, MCNode.mk t.state (t.visits + 1) (t.rewards + p) rest
              (t.children ++ [(a, MCNode.mk ns2 1 p (mkNode ns).missing [])]),
              true)) := by
  rw [descendIter.eq_def, if_neg (by simp [ht]), if_neg hm]

/-- A fuel-starved selection step fails. -/
theorem descendIter_zero_sel (t : MCNode) (sel : List Nat) (roll : List Action)
    (ht : isTerminal t.state = false) (hm : t.missing = []) :
    descendIter 0 t sel roll = none := by
  rw [descendIter.eq_def, if_neg (by simp [ht]), if_pos hm]

/-- Unfolding of a selection step with fuel left: pick a child by the
oracle, refresh its state from the parent, recurse, and update in place. -/
theorem descendIter_succ_sel (f : Nat) (t : MCNode) (sel : List Nat)
    (roll : List Action) (ht : isTerminal t.state = false) (hm : t.missing = []) :
    descendIter (f + 1) t sel roll =
      (match t.children.get? ((sel.headD 0) % t.children.length) with
      | none => none
      | some (a, c) =>
        match refreshHand c.state t.state.deck t.state.my_hand with
        | none => none
        | some cs2 =>
          match descendIter f (MCNode.mk cs2 c.visits c.rewards c.missing c.children)
              sel.tail roll with
          | none => none
          | some (p, c2, ok) =>
            some (p, MCNode.mk t.state (t.visits + 1) (t.rewards + p) t.missing
              (t.children.set ((sel.headD 0) % t.children.length) (a, c2)),
              (decide (1 ≤ t.visits) &&
                t.children.all fun q => decide (1 ≤ q.2.visits)) && ok)) := by
  rw [descendIter.eq_def, if_neg (by simp [ht]), if_pos hm]

theorem nodeInv_fields (t : MCNode) (h : NodeInv t) :
    t.children.length ≤ t.visits ∧ ∀ q ∈ t.children, 1 ≤ (q.2).visits ∧ NodeInv q.2 := by
  cases h with
  | mk s v r m c h1 h2 h3 => exact ⟨h1, fun q hq => ⟨h2 q hq, h3 q hq⟩⟩

theorem nodeInv_intro (t : MCNode) (h1 : t.children.length ≤ t.visits)
    (h2 : ∀ q ∈ t.children, 1 ≤ (q.2).visits ∧ NodeInv q.2) : NodeInv t := by
  cases t with
  | mk s v r m c =>
    exact NodeInv.mk s v r m c h1 (fun q hq => (h2 q hq).1) (fun q hq => (h2 q hq).2)

/-- Every successful driver iteration preserves the tree invariant, and
every UCB precondition check recorded along its selection path passes. -/
theorem descend_preserves_inv : ∀ (fuel : Nat) (t : MCNode) (sel : List Nat)
    (roll : List Action) (p : ℚ) (t2 : MCNode) (ok : Bool), NodeInv t →
    descendIter fuel t sel roll = some (p, t2, ok) → NodeInv t2 ∧ ok = true := by
  intro fuel
  induction fuel with
  | zero =>
    intro t sel roll p t2 ok hinv h
    by_cases ht : isTerminal t.state = true
    · rw [descendIter_terminal_eq 0 t sel roll ht] at h
      cases hf : findTerminalValue t.state with
      | none => rw [hf] at h; simp at h
      | some q =>
        rw [hf] at h
        simp only [Option.map_some', Option.some.injEq, Prod.mk.injEq] at h
        obtain ⟨-, h2, hok⟩ := h
        subst h2
        obtain ⟨hl, hm⟩ := nodeInv_fields t hinv
        refine ⟨nodeInv_intro _ (by simpa using Nat.le_succ_of_le hl) (by simpa using hm),
          hok.symm⟩
    · by_cases hm : t.missing = []
      · rw [descendIter_zero_sel t sel roll (by simpa using ht) hm] at h
        simp at h
      · rw [descendIter_expand_eq 0 t sel roll (by simpa using ht) hm] at h
        cases hpop : popLast t.missing with
        | none => simp only [hpop] at h; cases h
        | some ar =>
          obtain ⟨a, rest⟩ := ar
          simp only [hpop] at h
          cases hsuc : successor t.state a with
          | none => simp only [hsuc] at h; cases h
          | some ns =>
            simp only [hsuc] at h
            cases hsim : simulateNode ns roll 0 with
            | none => simp only [hsim] at h; cases h
            | some pr =>
              obtain ⟨pp, ns2⟩ := pr
              simp only [hsim] at h
              simp only [Option.some.injEq, Prod.mk.injEq] at h
              obtain ⟨-, h2, hok⟩ := h
              subst h2
              obtain ⟨hl, hmem⟩ := nodeInv_fields t hinv
              refine ⟨nodeInv_intro _ ?_ ?_, hok.symm⟩
              · simp
                omega
              · simp only [MCNode.children_mk]
                intro q hq
                rcases List.mem_append.mp hq with hq1 | hq2
                · exact hmem q hq1
                · rcases List.mem_singleton.mp hq2 with rfl
                  refine ⟨by simp, nodeInv_intro _ (by simp) (by simp)⟩
  | succ f ih =>
    intro t sel roll p t2 ok hinv h
    by_cases ht : isTerminal t.state = true
    · rw [descendIter_terminal_eq (f + 1) t sel roll ht] at h
      cases hf : findTerminalValue t.state with
      | none => rw [hf] at h; simp at h
      | some q =>
        rw [hf] at h
        simp only [Option.map_some', Option.some.injEq, Prod.mk.injEq] at h
        obtain ⟨-, h2, hok⟩ := h
        subst h2
        obtain ⟨hl, hm⟩ := nodeInv_fields t hinv
        refine ⟨nodeInv_intro _ (by simpa using Nat.le_succ_of_le hl) (by simpa using hm),
          hok.symm⟩
    · by_cases hm : t.missing = []
      · rw [descendIter_succ_sel f t sel roll (by simpa using ht) hm] at h
        cases hget : t.children.get? ((sel.headD 0) % t.children.length) with
        | none => simp only [hget] at h; cases h
        | some ac =>
          obtain ⟨a, c⟩ := ac
          simp only [hget] at h
          cases href : refreshHand c.state t.state.deck t.state.my_hand with
          | none => simp only [href] at h; cases h
          | some cs2 =>
            simp only [href] at h
            cases hrec : descendIter f (MCNode.mk cs2 c.visits c.rewards c.missing c.children)
                sel.tail roll with
            | none => simp only [hrec] at h; cases h
            | some pr =>
              obtain ⟨pp, c2, ok2⟩ := pr
              simp only [hrec] at h
              simp only [Option.some.injEq, Prod.mk.injEq] at h
              obtain ⟨-, h2, hok⟩ := h
              subst h2
              obtain ⟨hl, hmem⟩ := nodeInv_fields t hinv
              have hcmem : (a, c) ∈ t.children := List.get?_mem hget
              have hcinv : NodeInv c := (hmem (a, c) hcmem).2
              obtain ⟨hcl, hcm⟩ := nodeInv_fields c hcinv
              have hrecinv := ih (MCNode.mk cs2 c.visits c.rewards c.missing c.children)
                sel.tail roll pp c2 ok2
                (nodeInv_intro _ (by simpa using hcl) (by simpa using hcm)) hrec
              have hvis := (descend_children_len f
                (MCNode.mk cs2 c.visits c.rewards c.missing c.children)
                sel.tail roll pp c2 ok2 hrec).2
              simp only [MCNode.visits_mk] at hvis
              have hpos : 0 < t.children.length := by
                have := (List.get?_eq_some.mp hget).1
                omega
              constructor
              · refine nodeInv_intro _ ?_ ?_
                · simp only [MCNode.children_mk, MCNode.visits_mk, List.length_set]
                  omega
                · simp only [MCNode.children_mk]
                  intro q hq
                  rcases List.mem_or_eq_of_mem_set hq with hq1 | hq2
                  · exact hmem q hq1
                  · rcases hq2 with rfl
                    exact ⟨by simp [hvis], hrecinv.1⟩
              · have hck1 : decide (1 ≤ t.visits) = true := by
                  simp
                  omega
                have hck2 : (t.children.all fun q => decide (1 ≤ (q.2).visits)) = true :=
                  List.all_eq_true.mpr fun q hq => by
                    simp
                    exact (hmem q hq).1
                rw [← hok, hck1, hck2, hrecinv.2]
                rfl
      · rw [descendIter_expand_eq (f + 1) t sel roll (by simpa using ht) hm] at h
        cases hpop : popLast t.missing with
        | none => simp only [hpop] at h; cases h
        | some ar =>
          obtain ⟨a, rest⟩ := ar
          simp only [hpop] at h
          cases hsuc : successor t.state a with
          | none => simp only [hsuc] at h; cases h
          | some ns =>
            simp only [hsuc] at h
            cases hsim : simulateNode ns roll (f + 1) with
            | none => simp only [hsim] at h; cases h
            | some pr =>
              obtain ⟨pp, ns2⟩ := pr
              simp only [hsim] at h
              simp only [Option.some.injEq, Prod.mk.injEq] at h
              obtain ⟨-, h2, hok⟩ := h
              subst h2
              obtain ⟨hl, hmem⟩ := nodeInv_fields t hinv
              refine ⟨nodeInv_intro _ ?_ ?_, hok.symm⟩
              · simp
                omega
              · simp only [MCNode.children_mk]
                intro q hq
                rcases List.mem_append.mp hq with hq1 | hq2
                · exact hmem q hq1
                · rcases List.mem_singleton.mp hq2 with rfl
                  refine ⟨by simp, nodeInv_intro _ (by simp) (by simp)⟩

/-- The tree invariant holds along every run of driver iterations. -/
theorem runIters_inv : ∀ (iters : List (List Nat × List Action)) (fuel : Nat)
    (t t2 : MCNode), NodeInv t → runIters fuel t iters = some t2 → NodeInv t2 := by
  intro iters
  induction iters with
  | nil =>
    intro fuel t t2 hinv h
    simp only [runIters] at h
    cases h
    exact hinv
  | cons e rest ih =>
    intro fuel t t2 hinv h
    obtain ⟨sel, roll⟩ := e
    simp only [runIters] at h
    cases hdes : descendIter fuel t sel roll with
    | none => rw [hdes] at h; simp at h
    | some q =>
      obtain ⟨p, t1, ok⟩ := q
      rw [hdes] at h
      exact ih fuel t1 t2 (descend_preserves_inv fuel t sel roll p t1 ok hinv hdes).1 h

/-- Claim C7: whenever tree selection evaluates the UCB score of a child
(inside `get_best_ucb_child` as called from `find_leaf_node`), that
child's visit count and the parent's visit count are both at least 1, so
the division by the child's visits and the logarithm of the parent's
visits in `get_ucb_value` are well defined.  Formally: starting from a
fresh root and running any number of complete search iterations (any
oracles, any fuel), the next iteration's recorded precondition checks —
which cover every child of every node whose children the code ranks by
UCB — can never come out false.  An unvisited child cannot be ranked: it
is only ever created by expansion, which ends the descent and
backpropagates through it before any further selection. -/
theorem ucb_visit_preconditions_hold :
    ∀ (s : BJState) (iters : List (List Nat × List Action)) (fuel f2 : Nat)
      (sel : List Nat) (roll : List Action),
    ((runIters fuel (mkNode s) iters).map fun t => okOf (descendIter f2 t sel roll))
      ≠ some false := by
  intro s iters fuel f2 sel roll
  cases hr : runIters fuel (mkNode s) iters with
  | none => simp
  | some t =>
    have hroot : NodeInv (mkNode s) :=
      nodeInv_intro _ (by simp [mkNode]) (by simp [mkNode])
    have hinv : NodeInv t := runIters_inv iters fuel _ t hroot hr
    simp only [Option.map_some', ne_eq, Option.some.injEq]
    intro hcon
    cases hd : descendIter f2 t sel roll with
    | none => rw [hd] at hcon; simp [okOf] at hcon
    | some q =>
      obtain ⟨p, t2, ok⟩ := q
      rw [hd] at hcon
      have := (descend_preserves_inv f2 t sel roll p t2 ok hinv hd).2
      rw [this] at hcon
      simp [okOf] at hcon

/-- Claim C4, counterexample: on a root whose hand value already exceeds
21 (value 25 here) the decision entry point does not return "stand"
(which would be `some false`): it builds the tree anyway, every iteration
returns the terminal root itself, no child is ever expanded, and the
final best-average-child selection fails, yielding no action at all. -/
theorem mcPolicy_terminal_root_returns_none :
    21 < handBust.value ∧
    mcPolicy handBust (buildHand [Rank.r5]) deckC3 [(true, [], [])] 5 = none := by
  decide

end AIGames
